import Mathlib

/-!
A verification development for the `fidelius` path-pairing and secret-registry
engine (`src/fidelius/incantations.py`, `src/fidelius/secrets.py`,
`src/fidelius/utils.py`, `src/fidelius/cli.py`).

Modelling conventions
=====================

* A file or directory *name* (one path component) is represented by the list of
  its dot-separated segments, exactly the decomposition `name.split('.')` used
  implicitly by `pathlib`'s `suffix` / `suffixes` / `with_suffix`.  A segment
  never contains a dot, and `renderName` (`String.intercalate "."`) recovers
  the Python string.  Empty segments faithfully represent leading, trailing and
  doubled dots (`'.hidden'` is `["", "hidden"]`, `'a..b'` is `["a", "", "b"]`).

* The two `str.replace` calls of the source use the patterns `'.encrypted'`
  (replaced by `'.decrypted'` or by `''`).  Each pattern contains exactly one
  dot, as its first character, and `'encrypted'` contains no dot, so an
  occurrence of the pattern in a name is exactly a segment boundary followed by
  a segment that starts with `'encrypted'`; occurrences cannot overlap, and
  Python's left-to-right scan of the original string is mirrored segment by
  segment.  (`'a.encryptedx.b'.replace('.encrypted', '.decrypted')` is
  `'a.decryptedx.b'`: the prefix of the following segment is rewritten.)

* A filesystem *path* is a list of names; search paths are kept relative to the
  searched directory.  The filesystem itself is modelled as the finite list of
  the (path, kind) entries a recursive walk would observe; `pathlib`'s
  `glob('**/pat')` is then the filter of the entries whose last component
  matches `pat`, and `Path.is_dir` / `Path.is_file` are the entry kind.

* Modelled paths are taken to be already absolute and free of symlinks and
  `.`/`..` indirection, so `Path.resolve()` is the identity on them.

* Python's `sorted` is a deterministic stable sort; with the total order used
  here (lexicographic comparison of the rendered path strings, which is how
  `pathlib.PurePath.__lt__` compares paths) it is modelled by
  `List.insertionSort`, which is also stable and agrees with every stable sort
  on a total preorder.

* Exceptions (`FideliusException`, `click.ClickException`, `KeyError`) become
  `Except String` / `Option` results: an error value means the Python original
  raised before performing any further action.
-/

namespace Fidelius

/-- One dot-separated segment of a file name.  Segments contain no dots. -/
abbrev Seg := String

/-- One path component, as its list of dot-separated segments. -/
abbrev Name := List Seg

/-- A filesystem path: a list of path components. -/
abbrev PathT := List Name

/-- The Python string of a name: segments joined with dots. -/
def renderName (n : Name) : String := String.intercalate "." n

/-- The Python string of a path: components joined with `/`. -/
def renderPath (p : PathT) : String := String.intercalate "/" (p.map renderName)

/-- `"encrypted"` has 9 characters; `s.drop 9` removes such a prefix. -/
def encLen : Nat := 9

/-- Does string `pre` occur as a prefix of `s`?  (Stated on the character
lists, which the kernel can evaluate.) -/
def segStartsWith (pre s : Seg) : Bool := pre.data.isPrefixOf s.data

/-- `fnmatch`-style matching for glob component patterns built from literal
characters and `*` (the only constructs occurring in the source's patterns).
`*` matches any, possibly empty, run of characters: the rest of the pattern
must match some suffix of the text. -/
def globMatch : List Char → List Char → Bool
  | [], cs => cs.isEmpty
  | p :: ps, cs =>
    if p = '*' then cs.tails.any (fun cs' => globMatch ps cs')
    else
      match cs with
      | [] => false
      | c :: cs' => p = c && globMatch ps cs'

/-- The component pattern of `Fidelius.search`'s two globs
(`'**/*.encrypted*'`): after the `'**/'` directory part, the last component is
matched against `'*.encrypted*'`. -/
def markedPattern : String := "*.encrypted*"

/-- Does a component name match the glob pattern `'*.encrypted*'`?  This is
exactly how `Fidelius.search` decides that a file or directory is a marked
secret source. -/
def matchesMarked (name : String) : Bool := globMatch markedPattern.data name.data

/-- Marked check for a name in segment representation. -/
def markedName (n : Name) : Bool := matchesMarked (renderName n)

/-- Modelled from the spec: "the literal substring `encrypted` appearing
anywhere in a path component's name (directory or file) identifies it as a
managed secret source."  Containment of the bare token, with or without a
preceding dot. -/
def containsTokenSpec (name : String) : Bool := decide ("encrypted".data <:+: name.data)

/-!  `pathlib.PurePath.suffix`, `suffixes` and `with_suffix`, on the segment
representation of the last path component.

`suffix`: `i = name.rfind('.')`; the suffix is `name[i:]` when `0 < i <
len(name) - 1` and `''` otherwise.  The last dot sits at position 0 exactly
when the name has precisely two segments and the first is empty; it sits at
the end exactly when the last segment is empty. -/

/-- `PurePath.suffix` of a name. -/
def pySuffix (n : Name) : String :=
  if n.length < 2 then ""
  else if n.headI = "" ∧ n.length = 2 then ""
  else if n.getLastD "" = "" then "" else "." ++ n.getLastD ""

/-- `PurePath.suffixes` of a name: `[]` if the name ends with a dot, otherwise
`['.' + s for s in name.lstrip('.').split('.')[1:]]`.  Stripping leading dots
removes the leading empty segments. -/
def pySuffixes (n : Name) : List String :=
  if n.getLastD "" = "" then []
  else ((n.dropWhile (fun s => s = "")).drop 1).map (fun s => "." ++ s)

/-- `PurePath.with_suffix` of a name.  The Python argument is either `''` or a
string `'.seg₁.seg₂…'`; it is passed here as the segment list `sfx`
(`[]` for `''`).  When the name has no suffix the argument is appended,
otherwise it replaces the last segment and its dot. -/
def pyWithSuffix (n : Name) (sfx : List Seg) : Name :=
  if pySuffix n = "" then n ++ sfx else n.dropLast ++ sfx

/-- One segment under `name.replace('.encrypted', '.decrypted')`: a segment
that follows a boundary dot and starts with `'encrypted'` has that prefix
rewritten to `'decrypted'`. -/
def repSeg (s : Seg) : Seg :=
  if segStartsWith "encrypted" s then "decrypted" ++ s.drop encLen else s

/-- `name.replace('.encrypted', '.decrypted')` on the segment representation:
every segment except the first (those are the ones preceded by a dot) gets its
`'encrypted'` prefix, if any, rewritten. -/
def replaceEncDec : Name → Name
  | [] => []
  | s :: rest => s :: rest.map repSeg

/-- Helper for `name.replace('.encrypted', '')`: removing the pattern deletes
a boundary dot, merging the tail of the matched segment into the accumulated
previous segment; the scan then continues to the right, matching Python's
non-overlapping left-to-right replacement. -/
def mergeEnc (acc : Seg) : List Seg → List Seg
  | [] => [acc]
  | s :: rest =>
    if segStartsWith "encrypted" s then mergeEnc (acc ++ s.drop encLen) rest
    else acc :: mergeEnc s rest

/-- `name.replace('.encrypted', '')` on the segment representation. -/
def replaceEncEmpty : Name → Name
  | [] => []
  | s :: rest => mergeEnc s rest

/-- `Fidelius.rename` restricted to the last path component, which is all it
modifies (`with_name` / `with_suffix` rebuild only the final component):

    name = path.name.replace('.encrypted', '.decrypted')
    path = path.with_name(name).with_suffix('')
    if '.decrypted' not in path.suffixes:
        path = path.with_suffix(f'.decrypted{path.suffix}')

The second `with_suffix` argument `'.decrypted' + path.suffix` is the segment
list `["decrypted"]` when `path.suffix` is empty and
`["decrypted", last segment]` otherwise. -/
def renameCore (n : Name) : Name :=
  let n1 := replaceEncDec n
  let n2 := pyWithSuffix n1 []
  if ".decrypted" ∈ pySuffixes n2 then n2
  else pyWithSuffix n2
    (if pySuffix n2 = "" then ["decrypted"] else ["decrypted", n2.getLastD ""])

/-- `Fidelius.rename` on a path: rewrite the last component. -/
def rename (p : PathT) : PathT :=
  match p.getLast? with
  | none => p
  | some n => p.dropLast ++ [renameCore n]

/-- `Fidelius.rename_directory`:
`path.with_name(path.name.replace('.encrypted', ''))`. -/
def rename_directory (p : PathT) : PathT :=
  match p.getLast? with
  | none => p
  | some n => p.dropLast ++ [replaceEncEmpty n]

/-- `Fidelius.transpose`: `to_dir / path.relative_to(from_dir)`.  In `search`
it is only applied to paths below `from_dir`, where `relative_to` drops the
`from_dir` prefix. -/
def transpose (p : PathT) (fromDir toDir : PathT) : PathT :=
  toDir ++ p.drop fromDir.length

end Fidelius

namespace Fidelius

/-!  Sorting.  `sorted` on `pathlib` paths compares the rendered (slash-joined)
path strings, so the sort key of a path is its rendered character list. -/

/-- The comparison key `pathlib.PurePath.__lt__` uses: the rendered string. -/
def pathKey (p : PathT) : List Char := (renderPath p).data

/-- `sorted`'s order on paths. -/
def pathLe (a b : PathT) : Prop := pathKey a ≤ pathKey b

instance : DecidableRel pathLe :=
  fun a b => inferInstanceAs (Decidable (pathKey a ≤ pathKey b))

instance : IsTotal PathT pathLe :=
  ⟨fun a b => IsTotal.total (r := (· ≤ · : List Char → List Char → Prop)) _ _⟩

instance : IsTrans PathT pathLe :=
  ⟨fun _ _ _ hab hbc =>
    IsTrans.trans (r := (· ≤ · : List Char → List Char → Prop)) _ _ _ hab hbc⟩

/-- Python's `sorted` on paths: a deterministic stable sort by `pathLe`. -/
def pySorted (l : List PathT) : List PathT := l.insertionSort pathLe

/-- `Path.is_dir()` / `Path.is_file()` discriminator of a filesystem entry. -/
inductive Kind where
  | file : Kind
  | dir : Kind
deriving DecidableEq

def Kind.isDir : Kind → Bool
  | .dir => true
  | .file => false

def Kind.isFile : Kind → Bool
  | .file => true
  | .dir => false

/-- The filesystem below the searched root directory: the (path, kind) entries
a recursive walk observes.  Paths are relative to the root and nonempty for
genuine entries. -/
structure FS where
  entries : List (PathT × Kind)

/-- The last component of a path (the `name` of a `pathlib` path). -/
def lastName (p : PathT) : Name := p.getLastD []

/-- `Fidelius.directories(directory, '**/*.encrypted*')`: the directories, at
any depth, whose name matches `*.encrypted*`, sorted (the source sorts them
twice — `tuple(sorted(...))` and again `sorted(directories)` — which is the
same list). -/
def directoriesOf (fs : FS) : List PathT :=
  pySorted ((fs.entries.filter
    (fun e => e.2.isDir && markedName (lastName e.1))).map (·.1))

/-- `Fidelius.files(directory, '**/*.encrypted*')`: the files, at any depth,
whose name matches `*.encrypted*`, sorted. -/
def filesOf (fs : FS) : List PathT :=
  pySorted ((fs.entries.filter
    (fun e => e.2.isFile && markedName (lastName e.1))).map (·.1))

/-- Component-wise prefix test on paths. -/
def pathStarts : PathT → PathT → Bool
  | [], _ => true
  | _ :: _, [] => false
  | a :: as, b :: bs => decide (a = b) && pathStarts as bs

/-- `in_directory(file, directory)` (`utils.py`): `file.relative_to(directory)`
succeeds exactly when the directory's components are a prefix of the file's
components.  (The source's assertions — the first path is a file, the second
a directory, and the two differ — hold at the only call site, inside
`search`.) -/
def in_directory (f d : PathT) : Bool := pathStarts d f

/-- `in_directories(path, directories)` (`utils.py`). -/
def in_directories (p : PathT) (dirs : List PathT) : Bool :=
  dirs.any (fun d => in_directory p d)

/-- `enc_dir.glob('**/*')` filtered by `is_file()`: every file entry strictly
below `enc_dir`. -/
def filesUnder (fs : FS) (d : PathT) : List PathT :=
  (fs.entries.filter
    (fun e => e.2.isFile && pathStarts d e.1 && decide (d.length < e.1.length))).map (·.1)

/-- The directory-derived pairs of `Fidelius.search` (`incantations.py`
42–47): for each marked directory in sorted order, every file beneath it,
paired with the file-rename of its transposition under the renamed
directory. -/
def dirPairsOf (fs : FS) : List (PathT × PathT) :=
  (directoriesOf fs).flatMap (fun encDir =>
    let decDir := rename_directory encDir
    (filesUnder fs encDir).map (fun encPath =>
      (encPath, rename (transpose encPath encDir decDir))))

/-- The standalone marked files of `Fidelius.search` (`incantations.py`
49–50): marked files that are not inside any of the marked directories. -/
def standaloneFiles (fs : FS) : List PathT :=
  (filesOf fs).filter (fun f => !in_directories f (directoriesOf fs))

/-- The pair-producing part of `Fidelius.search` (`incantations.py` 35–56):
directory-derived pairs first, then the sorted standalone marked files paired
by the file-level rename alone. -/
def search (fs : FS) : List (PathT × PathT) :=
  dirPairsOf fs ++ (pySorted (standaloneFiles fs)).map (fun f => (f, rename f))

/-- One managed pair (`secrets.py`).  The `gpg` subprocess handle carried by
the source's class is a declared out-of-scope collaborator and has no bearing
on path bookkeeping, so it is not part of the model. -/
structure Secret where
  encrypted : PathT
  decrypted : PathT
deriving DecidableEq

/-- `Path.resolve()`: makes a path absolute and eliminates symlinks and
`./..` indirection.  The model's paths are already canonical, so resolution is
the identity. -/
def resolve (p : PathT) : PathT := p

/-- `Secret` construction including `__attrs_post_init__` (`secrets.py`
83–86): a `FideliusException` is raised when the encrypted path's suffix is
not a recognized encryption format. -/
def mkSecret (encrypted decrypted : PathT) : Except String Secret :=
  if pySuffix (lastName encrypted) ∉ [".asc", ".gpg"] then
    .error ("I don't know how to decrypt " ++ renderName (lastName encrypted))
  else .ok ⟨encrypted, decrypted⟩

/-- Insertion of one binding into a Python dict, modelled as an ordered
association list: an existing key keeps its position and gets the new value, a
new key is appended. -/
def dictInsert (d : List (PathT × Secret)) (k : PathT) (v : Secret) :
    List (PathT × Secret) :=
  if d.any (fun kv => decide (kv.1 = k)) then
    d.map (fun kv => if kv.1 = k then (k, v) else kv)
  else d ++ [(k, v)]

/-- A Python dict built from a sequence of bindings: later bindings for the
same key overwrite earlier ones. -/
def dictOfPairs (l : List (PathT × Secret)) : List (PathT × Secret) :=
  l.foldl (fun d kv => dictInsert d kv.1 kv.2) []

def dictKeys (d : List (PathT × Secret)) : List PathT := d.map (·.1)

/-- The element-wise evaluation of the dict comprehension closing
`Fidelius.search` (`incantations.py` 56–63): pairs are turned into
`(resolved key, Secret)` bindings left to right, and the first failing
`Secret` construction aborts the whole build (the exception propagates). -/
def pairsToSecrets : List (PathT × PathT) →
    Except String (List (PathT × Secret))
  | [] => .ok []
  | pr :: rest => do
    let s ← mkSecret (resolve pr.1) (resolve pr.2)
    let kvs ← pairsToSecrets rest
    pure ((resolve pr.1, s) :: kvs)

/-- The dict comprehension closing `Fidelius.search` (`incantations.py`
56–63): one `Secret` per pair, keyed by the resolved encrypted path; no
partial registry is ever produced on failure. -/
def buildSecrets (pairs : List (PathT × PathT)) :
    Except String (List (PathT × Secret)) := do
  let kvs ← pairsToSecrets pairs
  pure (dictOfPairs kvs)

/-- `SecretKeeper` (`secrets.py`): the registry, a dict from resolved
encrypted path to `Secret`. -/
structure SecretKeeper where
  secrets : List (PathT × Secret)

/-- `SecretKeeper.__getitem__`: `self.secrets[item.resolve()]`; a missing key
raises `KeyError`, modelled by `none`. -/
def SecretKeeper.getItem (sk : SecretKeeper) (item : PathT) : Option Secret :=
  (sk.secrets.find? (fun kv => decide (kv.1 = resolve item))).map (·.2)

/-- `SecretKeeper.get`: `self.secrets.get(item.resolve(), default)`. -/
def SecretKeeper.get (sk : SecretKeeper) (item : PathT) (default : Secret) :
    Secret :=
  (sk.getItem item).getD default

/-- `sorted`'s order on secrets: `key=lambda s: s.encrypted`. -/
def secretLe (a b : Secret) : Prop := pathKey a.encrypted ≤ pathKey b.encrypted

instance : DecidableRel secretLe :=
  fun a b => inferInstanceAs (Decidable (pathKey a.encrypted ≤ pathKey b.encrypted))

instance : IsTotal Secret secretLe :=
  ⟨fun a b => IsTotal.total (r := (· ≤ · : List Char → List Char → Prop)) _ _⟩

instance : IsTrans Secret secretLe :=
  ⟨fun _ _ _ hab hbc =>
    IsTrans.trans (r := (· ≤ · : List Char → List Char → Prop)) _ _ _ hab hbc⟩

/-- `SecretKeeper.__iter__` (`secrets.py` 153–154):
`iter(sorted(self.secrets.values(), key=lambda s: s.encrypted))`.  Each call
builds the sorted sequence afresh from the registry. -/
def SecretKeeper.iterate (sk : SecretKeeper) : List Secret :=
  (sk.secrets.map (·.2)).insertionSort secretLe

/-- `set(str(s.decrypted) for s in self.secrets.values())`: the set of
rendered decrypted paths, modelled as the deduplicated list. -/
def decryptedStrs (sk : SecretKeeper) : List String :=
  (sk.secrets.map (fun kv => renderPath kv.2.decrypted)).dedup

/-- `included = decrypted - excluded`: the decrypted paths git did not report
as ignored. -/
def gitignoreViolations (sk : SecretKeeper) (excluded : List String) :
    List String :=
  (decryptedStrs sk).filter (fun p => decide (p ∉ excluded))

/-- `sorted`'s order on the rendered path strings. -/
def strLe (a b : String) : Prop := a.data ≤ b.data

instance : DecidableRel strLe :=
  fun a b => inferInstanceAs (Decidable (a.data ≤ b.data))

instance : IsTotal String strLe :=
  ⟨fun a b => IsTotal.total (r := (· ≤ · : List Char → List Char → Prop)) _ _⟩

instance : IsTrans String strLe :=
  ⟨fun _ _ _ hab hbc =>
    IsTrans.trans (r := (· ≤ · : List Char → List Char → Prop)) _ _ _ hab hbc⟩

/-- `SecretKeeper.run_gitignore_check` (`secrets.py` 156–168).  `excluded` is
the answer of the external `git check-ignore` query (its stdout lines).  If
any decrypted path is not excluded, a single `FideliusException` is raised
naming every offender, sorted and joined with `', '`. -/
def run_gitignore_check (sk : SecretKeeper) (excluded : List String) :
    Except String Unit :=
  if gitignoreViolations sk excluded = [] then .ok ()
  else
    .error ("Encrypted file(s) not excluded by .gitignore: " ++
      String.intercalate ", "
        ((gitignoreViolations sk excluded).insertionSort strLe))

/-- The decision core of the `edit` command (`cli.py` 194–211).  `old_text` is
the current decrypted contents, `new_text` the editor's result (`click.edit`
returns `None`, modelled as `none`, when the editor quits without saving).
An `.ok` result is the text handed to `sk.gpg.encrypt_text`; an `.error` is
the `ClickException` raised before the encrypt gateway is invoked, so no
filesystem mutation happens on error. -/
def editOutcome (old_text : String) (new_text : Option String) :
    Except String String :=
  match new_text with
  | none => .error "File is empty"
  | some t =>
    if t = "" then .error "File is empty"
    else if t = old_text then .error "No changes were made to the file"
    else .ok t

end Fidelius

namespace Fidelius

/-- Modelled from the spec, for comparison with the source's `rename`:
"renaming replaces the marker token with a second marker token denoting
'decrypted' state, then strips the trailing encryption-format suffix (the
`.asc`/`.gpg` extension).  If after this transform the filename does not
already contain the 'decrypted' marker as one of its dotted segments, append
it as a suffix segment immediately before the final remaining extension." -/
def renameSpecName (n : Name) : Name :=
  let n1 := replaceEncDec n
  let n2 := if pySuffix n1 ∈ [".asc", ".gpg"] then n1.dropLast else n1
  if ".decrypted" ∈ pySuffixes n2 then n2
  else pyWithSuffix n2
    (if pySuffix n2 = "" then ["decrypted"] else ["decrypted", n2.getLastD ""])

/-- The root used by the directory-precedence example: a marked directory
`secrets.encrypted` containing `a.json.asc`, and a standalone marked file
`b.encrypted.json.asc`. -/
def exampleFS : FS :=
  ⟨[([["secrets", "encrypted"]], Kind.dir),
    ([["secrets", "encrypted"], ["a", "json", "asc"]], Kind.file),
    ([["b", "encrypted", "json", "asc"]], Kind.file)]⟩

/-- A registry with three secrets whose decrypted paths are
`rootx/a.decrypted`, `rootx/b.decrypted` and `rootx/c.decrypted` — the
three-path ignore-list scenario of the spec. -/
def exampleSK3 : SecretKeeper :=
  ⟨[([["ea", "asc"]], ⟨[["ea", "asc"]], [["rootx"], ["a", "decrypted"]]⟩),
    ([["eb", "asc"]], ⟨[["eb", "asc"]], [["rootx"], ["b", "decrypted"]]⟩),
    ([["ec", "asc"]], ⟨[["ec", "asc"]], [["rootx"], ["c", "decrypted"]]⟩)]⟩

end Fidelius

namespace Fidelius

/- Sanity checks of the name model against CPython `pathlib` behaviour
(each line was checked against Python 3.11). -/

example : renderName ["example", "encrypted", "json", "asc"] = "example.encrypted.json.asc" := by decide
example : pySuffix ["x", "asc"] = ".asc" := by decide
example : pySuffix ["", "hidden"] = "" := by decide
example : pySuffix ["", "hidden", "asc"] = ".asc" := by decide
example : pySuffix ["weird", ""] = "" := by decide
example : pySuffixes ["a", "b", "c"] = [".b", ".c"] := by decide
example : pySuffixes ["", "", "a", "b"] = [".b"] := by decide
example : pySuffixes ["a", "", "b"] = [".", ".b"] := by decide
example : pySuffixes ["a", ""] = [] := by decide
example : renameCore ["example", "encrypted", "json", "asc"] = ["example", "decrypted", "json"] := by decide
example : renameCore ["a", "json", "asc"] = ["a", "decrypted", "json"] := by decide
example : renameCore ["x", "encrypted", "txt"] = ["x", "decrypted"] := by decide
example : renameCore ["", "encrypted", "json", "asc"] = ["", "decrypted", "decrypted", "json"] := by decide
example : renameCore ["", "hidden", "asc"] = ["", "hidden", "decrypted"] := by decide
example : renameCore ["a", "", "asc"] = ["a", "", "decrypted"] := by decide
example : renameCore ["weird", ""] = ["weird", "", "decrypted"] := by decide
example : renameCore ["example", "decrypted", "json"] = ["example", "decrypted"] := by decide
example : renameCore ["a", "decrypted", "asc", "asc"] = ["a", "decrypted", "asc"] := by decide
example : replaceEncDec ["a", "encryptedencrypted", "asc"] = ["a", "decryptedencrypted", "asc"] := by decide
example : replaceEncEmpty ["a", "encryptedencrypted", "asc"] = ["aencrypted", "asc"] := by decide
example : replaceEncEmpty ["a", "encrypted", "encrypted", "asc"] = ["a", "asc"] := by decide
example : replaceEncEmpty ["secrets", "encrypted"] = ["secrets"] := by decide
example : replaceEncEmpty ["a", "encryptedx", "b"] = ["ax", "b"] := by decide
example : matchesMarked "b.encrypted.json.asc" = true := by decide
example : matchesMarked "xencrypted.asc" = false := by decide
example : matchesMarked "a.encryptedfoo" = true := by decide
example : matchesMarked "encrypted.txt" = false := by decide

example :
    search exampleFS =
      [([["secrets", "encrypted"], ["a", "json", "asc"]],
        [["secrets"], ["a", "decrypted", "json"]]),
       ([["b", "encrypted", "json", "asc"]],
        [["b", "decrypted", "json"]])] := by decide

/-!  Glob matching: `globMatch` on a `*lit*` pattern is substring search. -/

theorem globMatch_star (ps : List Char) (cs : List Char) :
    globMatch ('*' :: ps) cs = true ↔ ∃ cs', cs' <:+ cs ∧ globMatch ps cs' = true := by
  simp only [globMatch]
  simp [List.any_eq_true, List.mem_tails]

theorem globMatch_single_star (cs : List Char) : globMatch ['*'] cs = true := by
  rw [globMatch_star]
  exact ⟨[], List.nil_suffix, rfl⟩

theorem globMatch_lit (lit : List Char) (hstar : '*' ∉ lit) (cs : List Char) :
    globMatch (lit ++ ['*']) cs = true ↔ lit <+: cs := by
  induction lit generalizing cs with
  | nil =>
    simpa using globMatch_single_star cs
  | cons p ps ih =>
    have hp : p ≠ '*' := fun hh => hstar (hh ▸ List.mem_cons_self p ps)
    have hps : '*' ∉ ps := fun hh => hstar (List.mem_cons_of_mem p hh)
    cases cs with
    | nil =>
      rw [List.cons_append, globMatch]
      simp [hp]
    | cons c cs' =>
      rw [List.cons_append, globMatch]
      simp [hp, ih hps, List.cons_prefix_cons]

theorem matchesMarked_iff_infix (name : String) :
    matchesMarked name = true ↔ ".encrypted".data <:+: name.data := by
  have hpat : markedPattern.data = '*' :: (".encrypted".data ++ ['*']) := by decide
  have hstar : '*' ∉ ".encrypted".data := by decide
  rw [matchesMarked, hpat, globMatch_star]
  constructor
  · rintro ⟨cs', hsuf, hm⟩
    exact List.infix_iff_prefix_suffix.mpr
      ⟨cs', (globMatch_lit _ hstar _).mp hm, hsuf⟩
  · intro h
    obtain ⟨t, hpre, hsuf⟩ := List.infix_iff_prefix_suffix.mp h
    exact ⟨t, hsuf, (globMatch_lit _ hstar _).mpr hpre⟩

end Fidelius

namespace Fidelius

/-- C3 — counterexample.  The claim reads every occurrence of the bare token
`encrypted` as a marker, with or without a preceding dot; but the scanner's
glob pattern `'*.encrypted*'` does not match the component `xencrypted.asc`,
whose name contains `encrypted` yet not `.encrypted`, so that file is not
discovered as managed. -/
theorem scanner_misses_bare_token :
    matchesMarked "xencrypted.asc" = false ∧
      containsTokenSpec "xencrypted.asc" = true := by
  decide

/-- C3 — amended.  A path component is treated as a marked secret source by
the scan exactly when the literal substring `.encrypted` (a dot followed by
the token) appears anywhere in its name. -/
theorem scanner_marks_iff_dot_encrypted (name : String) :
    matchesMarked name = true ↔ ".encrypted".data <:+: name.data :=
  matchesMarked_iff_infix name

/-- C3 — witness: the amended characterization evaluated at a concrete marked
and a concrete unmarked name. -/
theorem scanner_marks_iff_dot_encrypted_witness :
    matchesMarked "b.encrypted.json.asc" = true ∧
      ¬ matchesMarked "xencrypted.asc" = true := by
  constructor
  · exact (scanner_marks_iff_dot_encrypted "b.encrypted.json.asc").mpr (by decide)
  · intro h
    exact absurd ((scanner_marks_iff_dot_encrypted "xencrypted.asc").mp h) (by decide)

/-- C7.  The edit operation invokes the encrypt gateway exactly when the
editor returned text that is non-empty and differs from the previous
decrypted contents; when the result is `None`, empty, or byte-identical to
the old text, a user error is raised first and the gateway is never reached
(no filesystem mutation occurs). -/
theorem edit_rejects_empty_and_unchanged :
    ∀ (old_text : String) (new_text : Option String),
      ((∃ t, editOutcome old_text new_text = .ok t) ↔
        ∃ t, new_text = some t ∧ t ≠ "" ∧ t ≠ old_text) ∧
      ((new_text = none ∨ new_text = some "" ∨ new_text = some old_text) →
        ∃ msg, editOutcome old_text new_text = .error msg) ∧
      (∀ t, editOutcome old_text new_text = .ok t → new_text = some t) := by
  intro old_text new_text
  refine ⟨?_, ?_, ?_⟩
  · cases new_text with
    | none => simp [editOutcome]
    | some t =>
      by_cases h1 : t = ""
      · subst h1; simp [editOutcome]
      · by_cases h2 : t = old_text
        · subst h2; simp [editOutcome, h1]
        · simp [editOutcome, h1, h2]
  · rintro (rfl | rfl | rfl)
    · exact ⟨"File is empty", rfl⟩
    · exact ⟨"File is empty", by simp [editOutcome]⟩
    · by_cases h1 : old_text = ""
      · subst h1; exact ⟨"File is empty", by simp [editOutcome]⟩
      · exact ⟨"No changes were made to the file", by simp [editOutcome, h1]⟩
  · intro t h
    cases new_text with
    | none => simp [editOutcome] at h
    | some u =>
      simp only [editOutcome] at h
      split at h
      · exact absurd h (by simp)
      · split at h
        · exact absurd h (by simp)
        · simp at h
          exact congrArg some h

/-- C7 — witness: an unchanged edit is rejected, a changed one reaches the
gateway with the new text. -/
theorem edit_rejects_empty_and_unchanged_witness :
    (∃ msg, editOutcome "secret" (some "secret") = .error msg) ∧
      (∃ t, editOutcome "secret" (some "changed") = .ok t) := by
  constructor
  · exact (edit_rejects_empty_and_unchanged "secret" (some "secret")).2.1
      (Or.inr (Or.inr rfl))
  · exact (edit_rejects_empty_and_unchanged "secret" (some "changed")).1.mpr
      ⟨"changed", rfl, by decide, by decide⟩

end Fidelius

namespace Fidelius

/-!  Shape lemmas for `pySuffix` and the rename transforms. -/

theorem dot_append_ne_empty (a : String) : "." ++ a ≠ "" := by
  intro h
  have h2 := congrArg String.data h
  rw [String.data_append] at h2
  rw [show (".".data : List Char) = ['.'] from by decide,
    show ("".data : List Char) = [] from by decide] at h2
  exact List.cons_ne_nil _ _ h2

theorem dot_append_inj {a b : String} (h : "." ++ a = "." ++ b) : a = b := by
  have h2 := congrArg String.data h
  rw [String.data_append, String.data_append,
    show (".".data : List Char) = ['.'] from by decide] at h2
  exact String.ext (List.cons_injective h2)

/-- A name whose `pySuffix` is `'.' + l` ends in the nonempty segment `l`,
has at least two segments, and is not of the hidden-file shape `["", l]`. -/
theorem pySuffix_shape {n : Name} {l : String} (h : pySuffix n = "." ++ l) :
    l ≠ "" ∧ ∃ s₀ mid, n = s₀ :: (mid ++ [l]) ∧ ¬(s₀ = "" ∧ mid = []) := by
  unfold pySuffix at h
  split_ifs at h with h1 h2 h3
  · exact absurd h.symm (dot_append_ne_empty l)
  · exact absurd h.symm (dot_append_ne_empty l)
  · exact absurd h.symm (dot_append_ne_empty l)
  · have hlen : 2 ≤ n.length := not_lt.mp h1
    cases n with
    | nil => simp at hlen
    | cons s₀ rest =>
      rcases List.eq_nil_or_concat rest with rfl | ⟨mid, lst, rfl⟩
      · simp at hlen
      · rw [List.concat_eq_append] at *
        have hlast : (s₀ :: (mid ++ [lst])).getLastD "" = lst := by
          rw [← List.cons_append]; exact List.getLastD_concat _ _ _
        have hl : lst = l := by
          rw [hlast] at h h3
          exact dot_append_inj h
        subst hl
        refine ⟨?_, s₀, mid, rfl, ?_⟩
        · rw [hlast] at h3; exact h3
        · rintro ⟨hs, rfl⟩
          exact h2 ⟨hs, by simp⟩

/-- Computation of `pySuffix` on a decomposed name. -/
theorem pySuffix_of_shape (s₀ : Seg) (mid : List Seg) (l : Seg) (hl : l ≠ "")
    (hg : ¬(s₀ = "" ∧ mid = [])) :
    pySuffix (s₀ :: (mid ++ [l])) = "." ++ l := by
  have hlast : (s₀ :: (mid ++ [l])).getLastD "" = l := by
    rw [← List.cons_append]; exact List.getLastD_concat _ _ _
  have hlen : (s₀ :: (mid ++ [l])).length = mid.length + 2 := by simp
  unfold pySuffix
  rw [if_neg (by rw [hlen]; omega)]
  rw [if_neg (by
    rintro ⟨hs, hlen2⟩
    rw [hlen] at hlen2
    exact hg ⟨by simpa using hs, by simpa using List.length_eq_zero.mp (by omega)⟩)]
  rw [if_neg (by rw [hlast]; exact hl), hlast]

theorem replaceEncDec_decomp (s₀ : Seg) (mid : List Seg) (l : Seg) :
    replaceEncDec (s₀ :: (mid ++ [l])) = s₀ :: (mid.map repSeg ++ [repSeg l]) := by
  simp [replaceEncDec]

theorem dropLast_shape (s₀ : Seg) (mid : List Seg) (l : Seg) :
    (s₀ :: (mid ++ [l])).dropLast = s₀ :: mid := by
  rw [← List.cons_append, List.dropLast_concat]

/-- A name whose suffix is a recognized encryption format decomposes as
`s₀ :: mid ++ [l]` with `l` the format segment. -/
theorem fmt_suffix_decomp {n : Name} (h : pySuffix n ∈ [".asc", ".gpg"]) :
    ∃ s₀ mid l, (l = "asc" ∨ l = "gpg") ∧ n = s₀ :: (mid ++ [l]) ∧
      ¬(s₀ = "" ∧ mid = []) := by
  have hex : ∃ l, (l = "asc" ∨ l = "gpg") ∧ pySuffix n = "." ++ l := by
    rcases List.mem_cons.mp h with h' | h'
    · exact ⟨"asc", Or.inl rfl, by rw [h']; decide⟩
    · rcases List.mem_cons.mp h' with h'' | h''
      · exact ⟨"gpg", Or.inr rfl, by rw [h'']; decide⟩
      · simp at h''
  obtain ⟨l, hl, hsuf⟩ := hex
  obtain ⟨_, s₀, mid, hn, hg⟩ := pySuffix_shape hsuf
  exact ⟨s₀, mid, l, hl, hn, hg⟩

end Fidelius

namespace Fidelius

/-- C1.  On every path whose last component carries a recognized
encryption-format suffix, the source's `rename` computes exactly the
spec-described transform (replace the marker, strip the format suffix, insert
`.decrypted` before the final extension unless a `.decrypted` segment is
already present); in particular
`rename('example.encrypted.json.asc') = 'example.decrypted.json'`. -/
theorem rename_matches_spec_transform :
    (∀ n : Name, pySuffix n ∈ [".asc", ".gpg"] →
      renameCore n = renameSpecName n) ∧
    rename [["example", "encrypted", "json", "asc"]] =
      [["example", "decrypted", "json"]] := by
  constructor
  · intro n hmem
    obtain ⟨s₀, mid, l, hl, rfl, hg⟩ := fmt_suffix_decomp hmem
    have hlne : l ≠ "" := by rcases hl with rfl | rfl <;> decide
    have hrep : repSeg l = l := by rcases hl with rfl | rfl <;> decide
    simp only [renameCore, renameSpecName]
    rw [replaceEncDec_decomp, hrep]
    have h1 : pySuffix (s₀ :: (mid.map repSeg ++ [l])) = "." ++ l :=
      pySuffix_of_shape _ _ _ hlne
        (by rintro ⟨hs, hm⟩; exact hg ⟨hs, by simpa using hm⟩)
    have h2 : pyWithSuffix (s₀ :: (mid.map repSeg ++ [l])) [] = s₀ :: mid.map repSeg := by
      unfold pyWithSuffix
      rw [if_neg (by rw [h1]; exact dot_append_ne_empty l), dropLast_shape,
        List.append_nil]
    have h3 : pySuffix (s₀ :: (mid.map repSeg ++ [l])) ∈ [".asc", ".gpg"] := by
      rw [h1]; rcases hl with rfl | rfl <;> decide
    rw [h2, if_pos h3, dropLast_shape]
  · decide

/-- C1 — witness: the spec agreement applied to the representative name. -/
theorem rename_matches_spec_transform_witness :
    renameCore ["example", "encrypted", "json", "asc"] =
      renameSpecName ["example", "encrypted", "json", "asc"] :=
  rename_matches_spec_transform.1 _ (by decide)

/-- C9 — counterexample.  The decrypted-path transform is not idempotent:
applied to its own output for `example.encrypted.json.asc` (namely
`example.decrypted.json`) it transforms the name further. -/
theorem rename_second_application_transforms :
    rename (rename [["example", "encrypted", "json", "asc"]]) ≠
      rename [["example", "encrypted", "json", "asc"]] := by
  decide

/-- C9 — amended.  The transform is deterministic (equal inputs give equal
outputs), but it is not idempotent: on an output `stem.decrypted.ext` that
still carries a final extension, a second application strips that extension —
`example.encrypted.json.asc ↦ example.decrypted.json ↦ example.decrypted`. -/
theorem rename_deterministic_not_idempotent :
    (∀ p q : PathT, p = q → rename p = rename q) ∧
    (∀ s e : Seg, s ≠ "" → e ≠ "" → segStartsWith "encrypted" e = false →
      renameCore [s, "decrypted", e] = [s, "decrypted"]) ∧
    rename (rename [["example", "encrypted", "json", "asc"]]) =
      [["example", "decrypted"]] := by
  refine ⟨fun p q h => by rw [h], ?_, by decide⟩
  intro s e hs he hrep
  have hd : repSeg "decrypted" = "decrypted" := by decide
  have hre : repSeg e = e := by
    unfold repSeg
    rw [if_neg (by rw [hrep]; exact Bool.false_ne_true)]
  have h0 : renameCore [s, "decrypted", e] = renameCore (s :: (["decrypted"] ++ [e])) := rfl
  rw [h0]
  simp only [renameCore]
  rw [replaceEncDec_decomp, hre]
  have h1 : pySuffix (s :: (List.map repSeg ["decrypted"] ++ [e])) = "." ++ e := by
    rw [show List.map repSeg ["decrypted"] = ["decrypted"] from by rw [List.map_singleton, hd]]
    exact pySuffix_of_shape _ _ _ he (by rintro ⟨_, hm⟩; exact List.cons_ne_nil _ _ hm)
  have h2 : pyWithSuffix (s :: (List.map repSeg ["decrypted"] ++ [e])) [] =
      s :: List.map repSeg ["decrypted"] := by
    unfold pyWithSuffix
    rw [if_neg (by rw [h1]; exact dot_append_ne_empty e), dropLast_shape,
      List.append_nil]
  rw [h2, show List.map repSeg ["decrypted"] = ["decrypted"] from by
    rw [List.map_singleton, hd]]
  have hmem : ".decrypted" ∈ pySuffixes (s :: ["decrypted"]) := by
    unfold pySuffixes
    rw [show (s :: ["decrypted"]).getLastD "" = "decrypted" from rfl]
    rw [if_neg (by decide)]
    rw [show (s :: ["decrypted"]).dropWhile (fun t => t = "") = s :: ["decrypted"] from by
      rw [List.dropWhile_cons, if_neg (by simpa using hs)]]
    have hds : ("." ++ "decrypted" : String) = ".decrypted" := by decide
    simp [hds]
  rw [if_pos hmem]

/-- C9 — witness: the second-application behaviour at the representative
output name. -/
theorem rename_deterministic_not_idempotent_witness :
    renameCore ["example", "decrypted", "json"] = ["example", "decrypted"] :=
  rename_deterministic_not_idempotent.2.1 "example" "json" (by decide) (by decide)
    (by decide)

end Fidelius

namespace Fidelius

/-- On a name with a recognized encryption-format suffix, the rename transform
never returns the name unchanged.  (The result either loses its last segment,
or ends in a fresh `decrypted` segment where the original ends in the format
segment.) -/
theorem renameCore_ne_of_fmt {n : Name} (h : pySuffix n ∈ [".asc", ".gpg"]) :
    renameCore n ≠ n := by
  obtain ⟨s₀, mid, l, hl, rfl, hg⟩ := fmt_suffix_decomp h
  have hlne : l ≠ "" := by rcases hl with rfl | rfl <;> decide
  have hrep : repSeg l = l := by rcases hl with rfl | rfl <;> decide
  have hlnd : l ≠ "decrypted" := by rcases hl with rfl | rfl <;> decide
  simp only [renameCore]
  rw [replaceEncDec_decomp, hrep]
  have h1 : pySuffix (s₀ :: (mid.map repSeg ++ [l])) = "." ++ l :=
    pySuffix_of_shape _ _ _ hlne
      (by rintro ⟨hs, hm⟩; exact hg ⟨hs, by simpa using hm⟩)
  have h2 : pyWithSuffix (s₀ :: (mid.map repSeg ++ [l])) [] = s₀ :: mid.map repSeg := by
    unfold pyWithSuffix
    rw [if_neg (by rw [h1]; exact dot_append_ne_empty l), dropLast_shape,
      List.append_nil]
  rw [h2]
  split_ifs with hmem hps
  · -- result drops the last segment: lengths differ
    intro heq
    have hlen := congrArg List.length heq
    simp at hlen
  · -- no suffix left: the result ends in a fresh `decrypted` segment
    unfold pyWithSuffix
    rw [if_pos hps]
    intro heq
    injection heq with _ htail
    obtain ⟨_, hsing⟩ := List.append_inj htail (by simp)
    rcases hl with rfl | rfl <;> exact absurd hsing (by decide)
  · -- a suffix remains: the result's second-to-last segment is `decrypted`
    have hmid : mid ≠ [] := by
      rintro rfl
      exact hps (by unfold pySuffix; simp)
    rcases List.eq_nil_or_concat mid with rfl | ⟨mid', x, rfl⟩
    · exact absurd rfl hmid
    · rw [List.concat_eq_append] at *
      have hn2 : (mid' ++ [x]).map repSeg = mid'.map repSeg ++ [repSeg x] := by simp
      have hlast : (s₀ :: ((mid' ++ [x]).map repSeg)).getLastD "" = repSeg x := by
        rw [hn2, ← List.cons_append]; exact List.getLastD_concat _ _ _
      unfold pyWithSuffix
      rw [if_neg hps, hlast, hn2, dropLast_shape]
      intro heq
      rw [List.append_assoc mid' [x] [l]] at heq
      injection heq with _ htail
      obtain ⟨_, hpair⟩ := List.append_inj htail (by simp)
      have hx : x = "decrypted" := by
        have := congrArg (fun t => t.headI) hpair
        simpa using this.symm
      have hrx : repSeg x = l := by
        have := congrArg (fun t => t.getLastD "") hpair
        simpa using this
      rw [hx] at hrx
      rw [show repSeg "decrypted" = "decrypted" from by decide] at hrx
      exact hlnd hrx.symm

/-- `rename` rewrites the last component with `renameCore`. -/
theorem getLast?_rename {p : PathT} {n : Name} (h : p.getLast? = some n) :
    (rename p).getLast? = some (renameCore n) := by
  unfold rename
  rw [h, List.getLast?_append]
  rfl

/-- Dropping strictly fewer elements than the length keeps the last one. -/
theorem getLast?_drop_of_lt {p : PathT} {k : Nat} (h : k < p.length) :
    (p.drop k).getLast? = p.getLast? := by
  have hne : p.drop k ≠ [] := by
    rw [Ne, List.drop_eq_nil_iff]
    omega
  obtain ⟨v, hv⟩ : ∃ v, (p.drop k).getLast? = some v := by
    cases hx : (p.drop k).getLast? with
    | none => exact absurd (List.getLast?_eq_none_iff.mp hx) hne
    | some v => exact ⟨v, rfl⟩
  conv_rhs => rw [← List.take_append_drop k p]
  rw [List.getLast?_append, hv]
  rfl

theorem lastName_eq {p : PathT} {n : Name} (h : p.getLast? = some n) :
    lastName p = n := by
  unfold lastName
  rw [List.getLastD_eq_getLast?, h]
  rfl

/-- Every pair the scan produces renames the encrypted path's last component
with `renameCore` to obtain the decrypted path's last component. -/
theorem search_pair_last {fs : FS} {e d : PathT} (h : (e, d) ∈ search fs) :
    ∃ n, e.getLast? = some n ∧ d.getLast? = some (renameCore n) := by
  unfold search at h
  rcases List.mem_append.mp h with h | h
  · unfold dirPairsOf at h
    rw [List.mem_flatMap] at h
    obtain ⟨encDir, _, hmem⟩ := h
    simp only [List.mem_map] at hmem
    obtain ⟨encPath, hfu, heq⟩ := hmem
    rw [Prod.mk.injEq] at heq
    obtain ⟨rfl, rfl⟩ := heq
    unfold filesUnder at hfu
    simp only [List.mem_map, List.mem_filter] at hfu
    obtain ⟨entry, ⟨_, hcond⟩, rfl⟩ := hfu
    simp only [Bool.and_eq_true, decide_eq_true_eq] at hcond
    have hlt : encDir.length < entry.1.length := hcond.2
    have hne : entry.1 ≠ [] := by
      intro hnil
      rw [hnil] at hlt
      simp at hlt
    obtain ⟨n, hn⟩ : ∃ n, entry.1.getLast? = some n := by
      cases hx : entry.1.getLast? with
      | none => exact absurd (List.getLast?_eq_none_iff.mp hx) hne
      | some v => exact ⟨v, rfl⟩
    refine ⟨n, hn, ?_⟩
    apply getLast?_rename
    unfold transpose
    rw [List.getLast?_append, getLast?_drop_of_lt hlt, hn]
    rfl
  · simp only [List.mem_map] at h
    obtain ⟨f, hf, heq⟩ := h
    rw [Prod.mk.injEq] at heq
    obtain ⟨rfl, rfl⟩ := heq
    have hmem : f ∈ standaloneFiles fs :=
      ((List.perm_insertionSort pathLe _).mem_iff).mp hf
    have hmarked : markedName (lastName f) = true := by
      unfold standaloneFiles at hmem
      have h7 := (List.mem_filter.mp hmem).1
      unfold filesOf at h7
      have h8 := ((List.perm_insertionSort pathLe _).mem_iff).mp h7
      simp only [List.mem_map, List.mem_filter] at h8
      obtain ⟨entry, ⟨_, hcond⟩, rfl⟩ := h8
      simp only [Bool.and_eq_true] at hcond
      exact hcond.2
    have hne : f ≠ [] := by
      rintro rfl
      exact absurd hmarked (by decide)
    obtain ⟨n, hn⟩ : ∃ n, f.getLast? = some n := by
      cases hx : f.getLast? with
      | none => exact absurd (List.getLast?_eq_none_iff.mp hx) hne
      | some v => exact ⟨v, rfl⟩
    exact ⟨n, hn, getLast?_rename hn⟩

end Fidelius

namespace Fidelius

/-- C8.  Every pair produced by the scan whose encrypted path carries a
recognized encryption-format suffix (`.asc`/`.gpg`, i.e. every pair that
survives `Secret` validation) has distinct encrypted and decrypted paths. -/
theorem search_pair_paths_differ (fs : FS) (e d : PathT)
    (hmem : (e, d) ∈ search fs)
    (hfmt : pySuffix (lastName e) ∈ [".asc", ".gpg"]) : e ≠ d := by
  obtain ⟨n, hn, hd⟩ := search_pair_last hmem
  rw [lastName_eq hn] at hfmt
  intro heq
  rw [heq, hd] at hn
  exact renameCore_ne_of_fmt hfmt (Option.some_injective _ hn)

/-- C8 — witness: the inequality at a concrete scanned pair. -/
theorem search_pair_paths_differ_witness :
    ([["b", "encrypted", "json", "asc"]], [["b", "decrypted", "json"]]) ∈
        search exampleFS ∧
      pySuffix (lastName [["b", "encrypted", "json", "asc"]]) ∈ [".asc", ".gpg"] ∧
      ([["b", "encrypted", "json", "asc"]] : PathT) ≠ [["b", "decrypted", "json"]] :=
  ⟨by decide, by decide,
    search_pair_paths_differ exampleFS _ _ (by decide) (by decide)⟩

/-- C2.  On the representative root, the scan produces exactly one pair per
file — the directory-contained file paired through the renamed directory, the
standalone file through the file-level rename — and, on every root, a file
that lies inside a discovered marked directory never appears among the
standalone files. -/
theorem search_directory_precedence :
    (search exampleFS =
      [([["secrets", "encrypted"], ["a", "json", "asc"]],
        [["secrets"], ["a", "decrypted", "json"]]),
       ([["b", "encrypted", "json", "asc"]],
        [["b", "decrypted", "json"]])]) ∧
    (∀ fs : FS, ∀ f ∈ standaloneFiles fs, ∀ dp ∈ directoriesOf fs,
      in_directory f dp = false) := by
  refine ⟨by decide, ?_⟩
  intro fs f hf dp hdp
  have h1 := (List.mem_filter.mp hf).2
  rw [Bool.not_eq_true'] at h1
  unfold in_directories at h1
  rw [List.any_eq_false] at h1
  simpa using h1 dp hdp

/-- C2 — witness: the exclusion applied to the example root's standalone file
and marked directory. -/
theorem search_directory_precedence_witness :
    in_directory [["b", "encrypted", "json", "asc"]] [["secrets", "encrypted"]] =
      false :=
  search_directory_precedence.2 exampleFS _ (by decide) _ (by decide)

end Fidelius

namespace Fidelius

/-!  Dict-model lemmas. -/

theorem dictInsert_keys_nodup {d : List (PathT × Secret)} {k : PathT} {v : Secret}
    (h : (dictKeys d).Nodup) : (dictKeys (dictInsert d k v)).Nodup := by
  unfold dictInsert
  split_ifs with hany
  · have heq : dictKeys (d.map (fun kv => if kv.1 = k then (k, v) else kv)) =
        dictKeys d := by
      unfold dictKeys
      rw [List.map_map]
      apply List.map_congr_left
      intro kv _
      by_cases hk : kv.1 = k
      · simp [hk]
      · simp [hk]
    rw [heq]
    exact h
  · unfold dictKeys
    rw [List.map_append]
    rw [List.nodup_append]
    refine ⟨h, List.nodup_singleton k, ?_⟩
    rw [List.disjoint_left]
    intro a ha hb
    simp only [List.map_cons, List.map_nil, List.mem_singleton] at hb
    subst hb
    apply hany
    rw [List.any_eq_true]
    obtain ⟨kv, hkv, hkeq⟩ := List.mem_map.mp ha
    exact ⟨kv, hkv, by rw [hkeq]; simp⟩

theorem dictOfPairs_keys_nodup (l : List (PathT × Secret)) :
    (dictKeys (dictOfPairs l)).Nodup := by
  unfold dictOfPairs
  suffices h : ∀ d : List (PathT × Secret), (dictKeys d).Nodup →
      (dictKeys (l.foldl (fun d kv => dictInsert d kv.1 kv.2) d)).Nodup from
    h [] (by simp [dictKeys])
  induction l with
  | nil => intro d hd; exact hd
  | cons kv rest ih =>
    intro d hd
    exact ih _ (dictInsert_keys_nodup hd)

theorem dictInsert_forall {P : PathT × Secret → Prop} {d : List (PathT × Secret)}
    {k : PathT} {v : Secret} (hd : ∀ kv ∈ d, P kv) (hkv : P (k, v)) :
    ∀ kv ∈ dictInsert d k v, P kv := by
  unfold dictInsert
  split_ifs with hany
  · intro kv hkv2
    obtain ⟨kv', hkv', heq⟩ := List.mem_map.mp hkv2
    by_cases hk : kv'.1 = k
    · rw [if_pos hk] at heq; rw [← heq]; exact hkv
    · rw [if_neg hk] at heq; rw [← heq]; exact hd kv' hkv'
  · intro kv hkv2
    rcases List.mem_append.mp hkv2 with h | h
    · exact hd kv h
    · rw [List.mem_singleton] at h; rw [h]; exact hkv

theorem dictOfPairs_forall {P : PathT × Secret → Prop} {l : List (PathT × Secret)}
    (hl : ∀ kv ∈ l, P kv) : ∀ kv ∈ dictOfPairs l, P kv := by
  unfold dictOfPairs
  suffices h : ∀ d : List (PathT × Secret), (∀ kv ∈ d, P kv) →
      ∀ kv ∈ l.foldl (fun d kv => dictInsert d kv.1 kv.2) d, P kv from
    h [] (by simp)
  induction l with
  | nil => intro d hd; exact hd
  | cons kv rest ih =>
    intro d hd
    exact ih (fun pr hpr => hl pr (List.mem_cons_of_mem kv hpr)) _
      (dictInsert_forall hd (hl kv (List.mem_cons_self kv rest)))

theorem find?_map_update (d : List (PathT × Secret)) (a k : PathT) (b : Secret)
    (hak : a ≠ k) :
    (d.map (fun kv => if kv.1 = a then (a, b) else kv)).find?
        (fun kv => decide (kv.1 = k)) =
      d.find? (fun kv => decide (kv.1 = k)) := by
  induction d with
  | nil => rfl
  | cons kv rest ih =>
    by_cases hkv : kv.1 = a
    · rw [List.map_cons, if_pos hkv, List.find?_cons, List.find?_cons]
      rw [show (decide ((a, b).1 = k)) = false from by simp [hak]]
      rw [show (decide (kv.1 = k)) = false from by simp [hkv, hak]]
      exact ih
    · rw [List.map_cons, if_neg hkv, List.find?_cons, List.find?_cons]
      cases hpk : decide (kv.1 = k) with
      | true => rfl
      | false => exact ih

theorem find?_map_update_self (d : List (PathT × Secret)) (a : PathT) (b : Secret)
    (hany : d.any (fun kv => decide (kv.1 = a)) = true) :
    (d.map (fun kv => if kv.1 = a then (a, b) else kv)).find?
        (fun kv => decide (kv.1 = a)) = some (a, b) := by
  induction d with
  | nil => simp at hany
  | cons kv rest ih =>
    by_cases hkv : kv.1 = a
    · rw [List.map_cons, if_pos hkv, List.find?_cons]
      rw [show (decide ((a, b).1 = a)) = true from by simp]
    · rw [List.map_cons, if_neg hkv, List.find?_cons]
      rw [show (decide (kv.1 = a)) = false from by simp [hkv]]
      apply ih
      rw [List.any_cons] at hany
      rw [show (decide (kv.1 = a)) = false from by simp [hkv], Bool.false_or] at hany
      exact hany

theorem find?_dictInsert (d : List (PathT × Secret)) (a : PathT) (b : Secret)
    (k : PathT) :
    (dictInsert d a b).find? (fun kv => decide (kv.1 = k)) =
      if a = k then some (a, b) else d.find? (fun kv => decide (kv.1 = k)) := by
  unfold dictInsert
  split_ifs with hany hak hak
  · subst hak
    exact find?_map_update_self d a b hany
  · exact find?_map_update d a k b hak
  · subst hak
    rw [List.find?_append]
    rw [show List.find? (fun kv => decide (kv.1 = a)) d = none from ?_]
    · rw [show List.find? (fun kv => decide (kv.1 = a)) [(a, b)] = some (a, b) from by
        simp [List.find?_cons]]
      rfl
    · rw [List.find?_eq_none]
      intro kv hkv
      simp only [decide_eq_true_eq]
      intro hkeq
      apply hany
      rw [List.any_eq_true]
      exact ⟨kv, hkv, by simp [hkeq]⟩
  · rw [List.find?_append]
    rw [show List.find? (fun kv => decide (kv.1 = k)) [(a, b)] = none from by
      simp [List.find?_cons, hak]]
    rw [Option.or_none]

theorem dictOfPairs_append_singleton (l : List (PathT × Secret))
    (kv : PathT × Secret) :
    dictOfPairs (l ++ [kv]) = dictInsert (dictOfPairs l) kv.1 kv.2 := by
  unfold dictOfPairs
  rw [List.foldl_append]
  rfl

/-- Lookup in the built dict returns the value of the *last* binding with the
queried key: later pairs overwrite earlier ones. -/
theorem dictOfPairs_find? (l : List (PathT × Secret)) (k : PathT) :
    (dictOfPairs l).find? (fun kv => decide (kv.1 = k)) =
      l.reverse.find? (fun kv => decide (kv.1 = k)) := by
  induction l using List.reverseRecOn with
  | nil => rfl
  | append_singleton l kv ih =>
    rw [dictOfPairs_append_singleton, find?_dictInsert, List.reverse_append]
    simp only [List.reverse_cons, List.reverse_nil, List.nil_append,
      List.singleton_append]
    rw [List.find?_cons]
    by_cases hk : kv.1 = k
    · rw [if_pos hk]
      rw [show (decide (kv.1 = k)) = true from by simp [hk]]
    · rw [if_neg hk]
      rw [show (decide (kv.1 = k)) = false from by simp [hk]]
      exact ih

/-!  `pairsToSecrets` lemmas. -/

theorem mkSecret_ok_iff (e d : PathT) :
    (∃ s, mkSecret e d = .ok s) ↔ pySuffix (lastName e) ∈ [".asc", ".gpg"] := by
  unfold mkSecret
  split_ifs with h
  · simp [h]
  · simp at h
    simp [h]

theorem mkSecret_ok_val {e d : PathT} {s : Secret} (h : mkSecret e d = .ok s) :
    s = ⟨e, d⟩ := by
  unfold mkSecret at h
  split_ifs at h
  injection h with h2
  exact h2.symm

theorem pairsToSecrets_ok_iff (pairs : List (PathT × PathT)) :
    (∃ kvs, pairsToSecrets pairs = .ok kvs) ↔
      ∀ pr ∈ pairs, pySuffix (lastName (resolve pr.1)) ∈ [".asc", ".gpg"] := by
  induction pairs with
  | nil =>
    constructor
    · intro _ pr hpr
      exact absurd hpr (List.not_mem_nil pr)
    · intro _
      exact ⟨[], rfl⟩
  | cons pr rest ih =>
    constructor
    · rintro ⟨kvs, hkvs⟩
      unfold pairsToSecrets at hkvs
      cases hs : mkSecret (resolve pr.1) (resolve pr.2) with
      | error e => rw [hs] at hkvs; exact Except.noConfusion hkvs
      | ok s =>
        rw [hs] at hkvs
        cases hrest : pairsToSecrets rest with
        | error e =>
          rw [hrest] at hkvs
          exact Except.noConfusion hkvs
        | ok kvs' =>
          intro x hx
          rcases List.mem_cons.mp hx with rfl | hx'
          · exact (mkSecret_ok_iff _ _).mp ⟨s, hs⟩
          · exact (ih.mp ⟨kvs', hrest⟩) x hx'
    · intro h
      obtain ⟨s, hs⟩ := (mkSecret_ok_iff (resolve pr.1) (resolve pr.2)).mpr
        (h pr (List.mem_cons_self pr rest))
      obtain ⟨kvs', hkvs'⟩ := ih.mpr (fun x hx => h x (List.mem_cons_of_mem pr hx))
      refine ⟨(resolve pr.1, s) :: kvs', ?_⟩
      unfold pairsToSecrets
      rw [hs, hkvs']
      rfl

theorem pairsToSecrets_ok_eq {pairs : List (PathT × PathT)}
    {kvs : List (PathT × Secret)} (h : pairsToSecrets pairs = .ok kvs) :
    kvs = pairs.map
      (fun pr => (resolve pr.1, Secret.mk (resolve pr.1) (resolve pr.2))) := by
  induction pairs generalizing kvs with
  | nil =>
    unfold pairsToSecrets at h
    injection h with h2
    rw [← h2]
    rfl
  | cons pr rest ih =>
    unfold pairsToSecrets at h
    cases hs : mkSecret (resolve pr.1) (resolve pr.2) with
    | error e => rw [hs] at h; exact Except.noConfusion h
    | ok s =>
      rw [hs] at h
      cases hrest : pairsToSecrets rest with
      | error e => rw [hrest] at h; exact Except.noConfusion h
      | ok kvs' =>
        rw [hrest] at h
        have h2 : Except.ok ((resolve pr.1, s) :: kvs') =
            (Except.ok kvs : Except String (List (PathT × Secret))) := h
        injection h2 with h3
        rw [← h3, List.map_cons, ih hrest, mkSecret_ok_val hs]

end Fidelius

namespace Fidelius

/-- C4.  `Secret` construction succeeds exactly when the encrypted path's
final extension is `.asc` or `.gpg`; registry construction succeeds exactly
when every scanned pair satisfies that, so one bad candidate such as
`x.encrypted.txt` fails the whole invocation (the `Except` result carries no
partial registry). -/
theorem secret_validation_gates_registry :
    (∀ e d : PathT,
      (∃ s, mkSecret e d = .ok s) ↔ pySuffix (lastName e) ∈ [".asc", ".gpg"]) ∧
    (∀ pairs : List (PathT × PathT),
      (∃ reg, buildSecrets pairs = .ok reg) ↔
        ∀ pr ∈ pairs, pySuffix (lastName (resolve pr.1)) ∈ [".asc", ".gpg"]) ∧
    buildSecrets
        [([["good", "asc"]], [["good", "decrypted"]]),
         ([["x", "encrypted", "txt"]], [["x", "decrypted"]])] =
      .error "I don't know how to decrypt x.encrypted.txt" := by
  refine ⟨mkSecret_ok_iff, ?_, by rfl⟩
  intro pairs
  unfold buildSecrets
  constructor
  · rintro ⟨reg, hreg⟩
    cases hps : pairsToSecrets pairs with
    | error e => rw [hps] at hreg; exact Except.noConfusion hreg
    | ok kvs => exact (pairsToSecrets_ok_iff pairs).mp ⟨kvs, hps⟩
  · intro h
    obtain ⟨kvs, hkvs⟩ := (pairsToSecrets_ok_iff pairs).mpr h
    refine ⟨dictOfPairs kvs, ?_⟩
    rw [hkvs]
    rfl

/-- C4 — witness: a registry built from suffix-correct pairs exists. -/
theorem secret_validation_gates_registry_witness :
    ∃ reg, buildSecrets [([["good", "asc"]], [["good", "decrypted"]])] = .ok reg :=
  (secret_validation_gates_registry.2.1 _).mpr (by decide)

/-- C5.  Iterating a registry yields its secrets sorted by encrypted path —
the sequence is a permutation of the registry's values, sorted by the
`sorted` key — and iteration is a pure function of the registry, so two
iterations give the same sequence; and a dict-built registry has pairwise
distinct keys (one `Secret` per distinct encrypted path). -/
theorem registry_iteration_sorted_unique :
    (∀ sk : SecretKeeper,
      List.Sorted secretLe sk.iterate ∧
      sk.iterate.Perm (sk.secrets.map (·.2)) ∧
      sk.iterate = sk.iterate) ∧
    (∀ l : List (PathT × Secret), (dictKeys (dictOfPairs l)).Nodup) := by
  refine ⟨fun sk => ⟨?_, ?_, rfl⟩, dictOfPairs_keys_nodup⟩
  · exact List.sorted_insertionSort secretLe _
  · exact List.perm_insertionSort secretLe _

/-- C5 — witness: sortedness of the three-secret example registry's
iteration. -/
theorem registry_iteration_sorted_unique_witness :
    List.Sorted secretLe exampleSK3.iterate :=
  (registry_iteration_sorted_unique.1 exampleSK3).1

/-- C6.  The ignore-list check succeeds exactly when every decrypted path is
in the excluded set; otherwise it raises one aggregated error naming the
violating paths, deduplicated and sorted; with three decrypted paths of which
two are excluded, the violation list is exactly the one remaining path. -/
theorem gitignore_check_aggregates :
    (∀ (sk : SecretKeeper) (excluded : List String),
      run_gitignore_check sk excluded = .ok () ↔
        ∀ kv ∈ sk.secrets, renderPath kv.2.decrypted ∈ excluded) ∧
    (∀ (sk : SecretKeeper) (excluded : List String),
      (gitignoreViolations sk excluded).Nodup ∧
      (∀ p, p ∈ gitignoreViolations sk excluded ↔
        ((∃ kv ∈ sk.secrets, renderPath kv.2.decrypted = p) ∧ p ∉ excluded)) ∧
      (gitignoreViolations sk excluded ≠ [] →
        run_gitignore_check sk excluded =
          .error ("Encrypted file(s) not excluded by .gitignore: " ++
            String.intercalate ", "
              ((gitignoreViolations sk excluded).insertionSort strLe)))) ∧
    gitignoreViolations exampleSK3 ["rootx/a.decrypted", "rootx/c.decrypted"] =
      ["rootx/b.decrypted"] := by
  refine ⟨?_, ?_, by decide⟩
  · intro sk excluded
    unfold run_gitignore_check
    split_ifs with h
    · simp only [true_iff]
      unfold gitignoreViolations at h
      rw [List.filter_eq_nil_iff] at h
      intro kv hkv
      have hmem : renderPath kv.2.decrypted ∈ decryptedStrs sk := by
        unfold decryptedStrs
        rw [List.mem_dedup]
        exact List.mem_map.mpr ⟨kv, hkv, rfl⟩
      have := h _ hmem
      simpa using this
    · constructor
      · intro habs
        exact habs.elim
      · intro hall
        exfalso
        apply h
        unfold gitignoreViolations
        rw [List.filter_eq_nil_iff]
        intro p hp
        simp only [decide_not, Bool.not_eq_true', decide_eq_false_iff_not,
          not_not]
        unfold decryptedStrs at hp
        rw [List.mem_dedup] at hp
        obtain ⟨kv, hkv, rfl⟩ := List.mem_map.mp hp
        exact hall kv hkv
  · intro sk excluded
    refine ⟨?_, ?_, ?_⟩
    · exact (List.nodup_dedup _).filter _
    · intro p
      unfold gitignoreViolations decryptedStrs
      rw [List.mem_filter, List.mem_dedup, List.mem_map]
      simp only [decide_not, Bool.not_eq_true', decide_eq_false_iff_not]
    · intro hne
      unfold run_gitignore_check
      rw [if_neg hne]

/-- C6 — witness: a fully excluded registry passes the check. -/
theorem gitignore_check_aggregates_witness :
    run_gitignore_check exampleSK3
        ["rootx/a.decrypted", "rootx/b.decrypted", "rootx/c.decrypted"] =
      .ok () :=
  (gitignore_check_aggregates.1 exampleSK3 _).mpr (by decide)

/-- C10.  In a registry built from scanned pairs, each map key is the resolved
encrypted path stored in its `Secret`; keys are pairwise distinct even when a
pair's encrypted path occurs several times (lookup returns the value of the
last binding, later pairs overwriting earlier ones); and a successful lookup
returns a `Secret` whose `encrypted` field equals the resolved query path. -/
theorem registry_key_equals_secret_encrypted :
    ∀ (pairs : List (PathT × PathT)) (reg : List (PathT × Secret)),
      buildSecrets pairs = .ok reg →
      (∀ kv ∈ reg, kv.2.encrypted = kv.1) ∧
      (dictKeys reg).Nodup ∧
      (∀ k, reg.find? (fun kv => decide (kv.1 = k)) =
        (pairs.map (fun pr =>
          (resolve pr.1, Secret.mk (resolve pr.1) (resolve pr.2)))).reverse.find?
          (fun kv => decide (kv.1 = k))) ∧
      (∀ p s, SecretKeeper.getItem ⟨reg⟩ p = some s → s.encrypted = resolve p) := by
  intro pairs reg hreg
  unfold buildSecrets at hreg
  cases hps : pairsToSecrets pairs with
  | error e => rw [hps] at hreg; exact Except.noConfusion hreg
  | ok kvs =>
    rw [hps] at hreg
    have h2 : Except.ok (dictOfPairs kvs) =
        (Except.ok reg : Except String (List (PathT × Secret))) := hreg
    injection h2 with h3
    have hkvs := pairsToSecrets_ok_eq hps
    have hall : ∀ kv ∈ reg, kv.2.encrypted = kv.1 := by
      rw [← h3]
      apply dictOfPairs_forall
      rw [hkvs]
      intro kv hkv
      obtain ⟨pr, _, rfl⟩ := List.mem_map.mp hkv
      rfl
    refine ⟨hall, ?_, ?_, ?_⟩
    · rw [← h3]; exact dictOfPairs_keys_nodup kvs
    · intro k
      rw [← h3, ← hkvs]
      exact dictOfPairs_find? kvs k
    · intro p s hs
      unfold SecretKeeper.getItem at hs
      obtain ⟨kv, hkv, hsv⟩ := Option.map_eq_some'.mp hs
      have hpred := List.find?_some hkv
      have hmem := List.mem_of_find?_eq_some hkv
      rw [← hsv, hall kv hmem]
      exact of_decide_eq_true hpred

/-- C10 — witness: a build with a duplicated encrypted path keeps one binding
whose key equals the stored encrypted path. -/
theorem registry_key_equals_secret_encrypted_witness :
    buildSecrets
        [([["n", "asc"]], [["n", "decrypted"]]),
         ([["n", "asc"]], [["n2", "decrypted"]])] =
      .ok [([["n", "asc"]], ⟨[["n", "asc"]], [["n2", "decrypted"]]⟩)] ∧
    (dictKeys [([["n", "asc"]],
      (⟨[["n", "asc"]], [["n2", "decrypted"]]⟩ : Secret))]).Nodup :=
  ⟨by rfl,
    (registry_key_equals_secret_encrypted
      [([["n", "asc"]], [["n", "decrypted"]]),
       ([["n", "asc"]], [["n2", "decrypted"]])]
      [([["n", "asc"]], ⟨[["n", "asc"]], [["n2", "decrypted"]]⟩)]
      (by rfl)).2.1⟩

end Fidelius

